import Mathlib

/-!
Verification of the two core numerical algorithms of an airfoil
shape-optimization code base against its design specification:

* the polar-based objective function of `data_loader.py` (class `DataLoader`):
  per-angle force-coefficient samples are reduced to one weighted scalar;
* the CST airfoil-geometry generator of `generate_airfoil.py`
  (class `AirfoilGenerator`): six shape parameters are turned into a closed
  airfoil outline.

The scoring component is embedded over `ℚ`: all of its operations are field
operations and absolute values, so exact rationals model the Python float
arithmetic faithfully and keep every concrete evaluation decidable.  The
geometry component is embedded over `ℝ`, because the code uses real powers
(`torch.pow` with real exponents) and the cosine function.  Division is the
Lean junk-value total division; every place where the Python code can actually
raise on a zero denominator (scalar division) is modelled explicitly with
`Except`, while elementwise tensor arithmetic (which silently produces
non-finite floats instead of raising) is modelled as total.
-/

namespace AirfoilOpt

/-- Minimum of a list, mirroring Python `min(...)` and `tensor.min()` on a
nonempty list; the empty list gets the junk value `0` (Python would raise). -/
def listMin {α : Type} [LinearOrder α] [Zero α] : List α → α
  | [] => 0
  | x :: xs => xs.foldl min x

/-- Maximum of a list, mirroring Python `max(...)` and `tensor.max()`. -/
def listMax {α : Type} [LinearOrder α] [Zero α] : List α → α
  | [] => 0
  | x :: xs => xs.foldl max x

/-- One force-coefficient sample of a polar: either the converged
`(cx, cy, cm_pitch)` triple (a pandas `Series` in the code) or the explicit
marker stored by `DataLoader._load_force_coefficients` when the run did not
converge (the code stores the empty list `[]`). -/
inductive CoefficientSample where
  | conv (cx cy cmPitch : ℚ)
  | notConv
deriving DecidableEq

/-- Constructor state of `DataLoader` that scoring depends on: `cl_target`,
`alpha_target`, `alpha_range`, the three objective weights and the fixed
penalty for non-converged angles. -/
structure DataLoaderConfig where
  clTarget : ℚ
  alphaTarget : ℚ
  alphaRange : List ℚ
  c1 : ℚ
  c2 : ℚ
  c3 : ℚ
  valueNotConverged : ℚ
deriving DecidableEq

/-- Value of `self._alpha_min = min(alpha_range)`. -/
def alphaMin (cfg : DataLoaderConfig) : ℚ := listMin cfg.alphaRange

/-- Value of `self._alpha_max = max(alpha_range)`. -/
def alphaMax (cfg : DataLoaderConfig) : ℚ := listMax cfg.alphaRange

/-- Per-angle term appended to `_obj` in `DataLoader._compute_objective`:
for a converged sample, `c1*cx` plus (only at the design angle) the lift-target
and pitching-moment terms; for a non-converged sample the fixed penalty. -/
def sampleObjective (cfg : DataLoaderConfig) (a : ℚ) (s : CoefficientSample) : ℚ :=
  match s with
  | .conv cx cy cm =>
      if a = cfg.alphaTarget then
        cfg.c1 * cx + cfg.c2 * |cfg.clTarget - cy| + cfg.c3 * |cm|
      else
        cfg.c1 * cx
  | .notConv => cfg.valueNotConverged

/-- Per-angle term appended to `_weight` in `DataLoader._compute_objective`:
`1 - |alpha_target - a| / (alpha_max - alpha_min)`, with no clamping. -/
def sampleWeight (cfg : DataLoaderConfig) (a : ℚ) : ℚ :=
  1 - |cfg.alphaTarget - a| / (alphaMax cfg - alphaMin cfg)

/-- Embedding of `DataLoader._compute_objective`: the polar is the ordered
association list angle ↦ sample held in `self._alpha` / `self._coefficients`;
the code builds the `_obj` and `_weight` lists over it and sums the pairwise
products `sum(w * o for w, o in zip(_weight, _obj))`. -/
def computeObjective (cfg : DataLoaderConfig) (polar : List (ℚ × CoefficientSample)) : ℚ :=
  (List.zipWith (fun w o => w * o)
    (polar.map fun p => sampleWeight cfg p.1)
    (polar.map fun p => sampleObjective cfg p.1 p.2)).sum

/-- Failure of `DataLoader._write_polar_file`: for a non-converged angle the
stored marker is the empty list, and `[]["cx"]` raises Python `TypeError`. -/
inductive PolarWriteError where
  | typeError
deriving DecidableEq

/-- Embedding of `DataLoader._write_polar_file`: one `(alpha, cx, cy, cm_pitch)`
row per angle, produced by indexing the stored sample with the string keys; on
a non-converged angle the row access raises (`.error`).  Fixed-precision
decimal formatting of the rows is not modelled. -/
def writePolarRows (polar : List (ℚ × CoefficientSample)) :
    Except PolarWriteError (List (ℚ × ℚ × ℚ × ℚ)) :=
  polar.mapM fun p =>
    match p.2 with
    | .conv cx cy cm => .ok (p.1, cx, cy, cm)
    | .notConv => .error .typeError

/-- Embedding of `DataLoader.evaluate_trial` (after loading): computes the
objective, then writes the polar file, then returns the objective; an
exception in the write step propagates out of the trial evaluation. -/
def evaluateTrial (cfg : DataLoaderConfig) (polar : List (ℚ × CoefficientSample)) :
    Except PolarWriteError ℚ :=
  (writePolarRows polar).map fun _ => computeObjective cfg polar

/-- Scaling of the three objective weights `c1, c2, c3` by a constant `k`,
with `value_not_converged` held fixed (the operation quantified in claim C8). -/
def scaleWeights (k : ℚ) (cfg : DataLoaderConfig) : DataLoaderConfig :=
  { cfg with c1 := k * cfg.c1, c2 := k * cfg.c2, c3 := k * cfg.c3 }

/-- Spec-side restatement of the per-angle contribution, following the wording
of the scoring contract: `contribution = c1 * cx` away from the design angle,
and at the design angle the additional terms are added so that
`contribution = c1*cx + c2*|cl_target - cy| + c3*|cm_pitch|`; a non-converged
sample contributes the fixed penalty.  Used only to compare against the
code-side `computeObjective` (claim C1). -/
def specContribution (cfg : DataLoaderConfig) (a : ℚ) (s : CoefficientSample) : ℚ :=
  match s with
  | .conv cx cy cm =>
      cfg.c1 * cx +
        (if a = cfg.alphaTarget then cfg.c2 * |cfg.clTarget - cy| + cfg.c3 * |cm| else 0)
  | .notConv => cfg.valueNotConverged

/-- Spec-side restatement of the scoring contract: the sum over all angles
present in the polar of `weight(a) * contribution(a)`, with weight
`1 - |alpha_target - a| / (alpha_max - alpha_min)`. -/
def specScore (cfg : DataLoaderConfig) (polar : List (ℚ × CoefficientSample)) : ℚ :=
  (polar.map fun p =>
    (1 - |cfg.alphaTarget - p.1| / (alphaMax cfg - alphaMin cfg)) *
      specContribution cfg p.1 p.2).sum

/-- Constructor state of `AirfoilGenerator`: number of points per side, the
cosine-versus-linear spacing flag and the chordwise bounds. -/
structure DiscretizationConfig where
  nPoints : ℕ
  cosineDistributed : Bool
  xStart : ℝ
  xStop : ℝ

/-- Shape parameters of one `generate_airfoil` call: CST exponents `n1`, `n2`,
thickness shape factor `kr`, maximal camber `f_max` at chordwise position `xf`,
and maximal thickness `t_max`. -/
structure ShapeParameters where
  n1 : ℝ
  n2 : ℝ
  kr : ℝ
  fMax : ℝ
  xf : ℝ
  tMax : ℝ

/-- Index-wise value of `torch.linspace(a, b, n)`: `a + i * (b - a) / (n - 1)`. -/
noncomputable def linspaceF (a b : ℝ) (n : ℕ) (i : ℕ) : ℝ :=
  a + i * (b - a) / ((n : ℝ) - 1)

/-- Embedding of `torch.linspace(a, b, n)` used by `_reset_coordinates`. -/
noncomputable def linspace (a b : ℝ) (n : ℕ) : List ℝ :=
  (List.range n).map (linspaceF a b n)

/-- Embedding of `AirfoilGenerator._compute_cosine_distribution`:
`(x_stop - x_start) / 2 * (1 - cos(pi * x))`. -/
noncomputable def cosineDistribution (cfg : DiscretizationConfig) (x : ℝ) : ℝ :=
  (cfg.xStop - cfg.xStart) / 2 * (1 - Real.cos (Real.pi * x))

/-- Chordwise samples right after `_reset_coordinates` applied the optional
cosine distribution to the linear sequence (before `_scale_x`). -/
noncomputable def rawX (cfg : DiscretizationConfig) : List ℝ :=
  if cfg.cosineDistributed then
    (linspace cfg.xStart cfg.xStop cfg.nPoints).map (cosineDistribution cfg)
  else
    linspace cfg.xStart cfg.xStop cfg.nPoints

/-- Index-wise view of `rawX`. -/
noncomputable def rawXF (cfg : DiscretizationConfig) (i : ℕ) : ℝ :=
  if cfg.cosineDistributed then
    cosineDistribution cfg (linspaceF cfg.xStart cfg.xStop cfg.nPoints i)
  else
    linspaceF cfg.xStart cfg.xStop cfg.nPoints i

/-- Embedding of `AirfoilGenerator._scale_x`: min-max normalization
`(x - x.min()) / (x.max() - x.min())` of the sample list. -/
noncomputable def scaleX (xs : List ℝ) : List ℝ :=
  xs.map fun x => (x - listMin xs) / (listMax xs - listMin xs)

/-- Unit-interval chordwise samples `self._x` after `_reset_coordinates`. -/
noncomputable def unitX (cfg : DiscretizationConfig) : List ℝ := scaleX (rawX cfg)

/-- Index-wise view of `unitX` when the raw samples are strictly monotone, so
that their minimum is the first and their maximum the last sample. -/
noncomputable def unitXF (cfg : DiscretizationConfig) (i : ℕ) : ℝ :=
  (rawXF cfg i - rawXF cfg 0) / (rawXF cfg (cfg.nPoints - 1) - rawXF cfg 0)

/-- Class function `C(x) = x^n1 * (1-x)^n2` of the CST method (real powers,
`torch.pow` with real exponents). -/
noncomputable def classFunction (p : ShapeParameters) (x : ℝ) : ℝ :=
  x ^ p.n1 * (1 - x) ^ p.n2

/-- Shape function `S(x) = x / kr + kr * (1 - x)`. -/
noncomputable def shapeFunction (p : ShapeParameters) (x : ℝ) : ℝ :=
  x / p.kr + p.kr * (1 - x)

/-- Pointwise value of `_compute_thickness_distribution`: `C(x) * S(x)`. -/
noncomputable def thicknessAt (p : ShapeParameters) (x : ℝ) : ℝ :=
  classFunction p x * shapeFunction p x

/-- Thickness distribution over the unit chordwise samples. -/
noncomputable def thicknessDistribution (cfg : DiscretizationConfig) (p : ShapeParameters) :
    List ℝ :=
  (unitX cfg).map (thicknessAt p)

/-- Pointwise value of `_compute_camber_line`: `a * (x*(1-x)/(1+b*x))` with
`a = 1/xf^2 * f_max` and `b = (1-2*xf)/xf^2`. -/
noncomputable def camberAt (p : ShapeParameters) (x : ℝ) : ℝ :=
  1 / p.xf ^ 2 * p.fMax * (x * (1 - x) / (1 + (1 - 2 * p.xf) / p.xf ^ 2 * x))

/-- Thickness scale `_sf = 0.5 * t_max / max(thickness_distribution)`. -/
noncomputable def scaleFactor (cfg : DiscretizationConfig) (p : ShapeParameters) : ℝ :=
  0.5 * p.tMax / listMax (thicknessDistribution cfg p)

/-- Suction-side ordinate `_y_ss = thickness * sf + camber`, pointwise. -/
noncomputable def suctionSideAt (cfg : DiscretizationConfig) (p : ShapeParameters) (x : ℝ) :
    ℝ :=
  thicknessAt p x * scaleFactor cfg p + camberAt p x

/-- Pressure-side ordinate `_y_ps = -thickness * sf + camber`, pointwise. -/
noncomputable def pressureSideAt (cfg : DiscretizationConfig) (p : ShapeParameters) (x : ℝ) :
    ℝ :=
  -thicknessAt p x * scaleFactor cfg p + camberAt p x

/-- Assembled unit abscissas `pt.cat([reversed(x)[:-1], x])`: trailing edge →
suction side → leading edge → pressure side → trailing edge, keeping a single
copy of the leading-edge sample. -/
noncomputable def assembledX (cfg : DiscretizationConfig) : List ℝ :=
  (unitX cfg).reverse.dropLast ++ unitX cfg

/-- Assembled unit ordinates `pt.cat([reversed(y_ss)[:-1], y_ps])`. -/
noncomputable def assembledY (cfg : DiscretizationConfig) (p : ShapeParameters) : List ℝ :=
  ((unitX cfg).map (suctionSideAt cfg p)).reverse.dropLast ++
    (unitX cfg).map (pressureSideAt cfg p)

/-- Embedding of `_reverse_min_max_scaling`: `d * (x_stop - x_start) + x_start`,
applied to both coordinate axes. -/
noncomputable def reverseMinMaxScaling (cfg : DiscretizationConfig) (d : ℝ) : ℝ :=
  d * (cfg.xStop - cfg.xStart) + cfg.xStart

/-- Final outline abscissas returned or written by `generate_airfoil`. -/
noncomputable def outlineX (cfg : DiscretizationConfig) : List ℝ :=
  (assembledX cfg).map (reverseMinMaxScaling cfg)

/-- Final outline ordinates returned or written by `generate_airfoil`. -/
noncomputable def outlineY (cfg : DiscretizationConfig) (p : ShapeParameters) : List ℝ :=
  (assembledY cfg p).map (reverseMinMaxScaling cfg)

/-- Runtime failure of `generate_airfoil`: the scalar division `1 / pow(xf, 2)`
in `_compute_camber_line` raises Python `ZeroDivisionError` when `xf = 0` (the
condition the spec names `InvalidParameter` for the camber line).  Every other
arithmetic step is elementwise tensor arithmetic, which never raises — it
silently produces non-finite floats on degenerate parameters instead. -/
inductive GenError where
  | divisionByZero
deriving DecidableEq

open Classical in
/-- Embedding of `AirfoilGenerator.generate_airfoil` in coordinate-returning
form: the thickness distribution is computed first (total, never raises), then
the camber-line coefficients raise iff `xf = 0`, before any output is
produced; otherwise the assembled, rescaled outline results. -/
noncomputable def generateAirfoil (cfg : DiscretizationConfig) (p : ShapeParameters) :
    Except GenError (List ℝ × List ℝ) :=
  if p.xf = 0 then .error .divisionByZero
  else .ok (outlineX cfg, outlineY cfg p)

/-- Content rows of the `.dat` coordinate file (`_write_data_to_dat_file` zips
the two coordinate lists); the `.error` case means generation failed before
the file was opened, so no partial file exists. -/
noncomputable def generateDatRows (cfg : DiscretizationConfig) (p : ShapeParameters) :
    Except GenError (List (ℝ × ℝ)) :=
  (generateAirfoil cfg p).map fun xy => xy.1.zip xy.2

theorem computeObjective_nil (cfg : DataLoaderConfig) : computeObjective cfg [] = 0 := rfl

theorem computeObjective_cons (cfg : DataLoaderConfig) (p : ℚ × CoefficientSample)
    (ps : List (ℚ × CoefficientSample)) :
    computeObjective cfg (p :: ps) =
      sampleWeight cfg p.1 * sampleObjective cfg p.1 p.2 + computeObjective cfg ps := by
  simp [computeObjective]

theorem sampleObjective_eq_specContribution (cfg : DataLoaderConfig) (a : ℚ)
    (s : CoefficientSample) : sampleObjective cfg a s = specContribution cfg a s := by
  cases s with
  | notConv => rfl
  | conv cx cy cm =>
    simp only [sampleObjective, specContribution]
    by_cases h : a = cfg.alphaTarget
    · simp [h]
      ring
    · simp [h]

/-- C1: for every polar, `DataLoader._compute_objective` returns the sum over
all angles present of `weight(a) * contribution(a)` exactly as the scoring
contract words it, and the concrete scenario — `alpha_target = 0`,
`alpha_range = [-2, 5]`, `cl_target = 0.4`, weights `c1 = 0.45`, `c2 = 0.25`,
`c3 = 0.2`, a polar with a single converged sample at `alpha = 0` with
`(cx, cy, cm_pitch) = (0.02, 0.4, -0.01)` — scores exactly `0.011`. -/
theorem objective_is_weighted_contribution_sum :
    (∀ (cfg : DataLoaderConfig) (polar : List (ℚ × CoefficientSample)),
        computeObjective cfg polar = specScore cfg polar) ∧
    computeObjective ⟨2/5, 0, [-2, 5], 9/20, 1/4, 1/5, 1⟩
        [(0, .conv (1/50) (2/5) (-1/100))] = 11/1000 := by
  constructor
  · intro cfg polar
    induction polar with
    | nil => rfl
    | cons p ps ih =>
      rw [computeObjective_cons, ih, sampleObjective_eq_specContribution]
      simp [specScore, sampleWeight]
  · norm_num [computeObjective, sampleWeight, sampleObjective, alphaMin, alphaMax,
      listMin, listMax]
    rw [abs_of_pos (by norm_num : (0 : ℚ) < 1 / 100)]
    norm_num

/-- C5 counterexample: evaluating a trial whose polar is empty does not fail —
`_compute_objective` sums over no angles and `evaluate_trial` returns the
default scalar `0` (the claim demands an `EmptyPolar` error instead). -/
theorem empty_polar_scores_zero_counterexample :
    evaluateTrial ⟨2/5, 0, [-2, 5], 9/20, 2/5, 1/20, 1⟩ [] = .ok 0 := rfl

/-- C5 amended: scoring an empty polar raises no error and returns the default
scalar `0` (the empty weighted sum); no `EmptyPolar` error exists in the code. -/
theorem empty_polar_scores_zero (cfg : DataLoaderConfig) :
    evaluateTrial cfg [] = .ok 0 := rfl

/-- C6: every angle's contribution is weighted by
`1 - |alpha_target - a| / (alpha_max - alpha_min)` with no clamping, so a polar
consisting only of non-converged samples scores exactly
`value_not_converged * (sum of the weights at those angles)`. -/
theorem notConverged_polar_scores_penalty_times_weights
    (cfg : DataLoaderConfig) (polar : List (ℚ × CoefficientSample))
    (hrange : alphaMin cfg < alphaMax cfg)
    (hnc : ∀ p ∈ polar, p.2 = CoefficientSample.notConv) :
    computeObjective cfg polar =
      cfg.valueNotConverged *
        (polar.map fun p =>
          1 - |cfg.alphaTarget - p.1| / (alphaMax cfg - alphaMin cfg)).sum := by
  induction polar with
  | nil => simp [computeObjective_nil]
  | cons p ps ih =>
    have hp : p.2 = CoefficientSample.notConv := hnc p (List.mem_cons_self p ps)
    have ih' := ih fun q hq => hnc q (List.mem_cons_of_mem p hq)
    rw [computeObjective_cons, ih', hp]
    simp only [sampleObjective, sampleWeight, List.map_cons, List.sum_cons]
    ring

/-- Witness for C6 at a concrete input: `alpha_target = 0`,
`alpha_range = [-2, 5]`, penalty `3`, a polar of two non-converged angles
`-10` and `0`; the weight of angle `-10` is `1 - 10/7 = -3/7 < 0` (no
clamping) and the score is `3 * (-3/7 + 1) = 12/7`. -/
theorem notConverged_polar_scores_penalty_times_weights_witness :
    alphaMin ⟨2/5, 0, [-2, 5], 9/20, 2/5, 1/20, 3⟩ <
        alphaMax ⟨2/5, 0, [-2, 5], 9/20, 2/5, 1/20, 3⟩ ∧
    (∀ p ∈ [((-10 : ℚ), CoefficientSample.notConv), (0, CoefficientSample.notConv)],
        p.2 = CoefficientSample.notConv) ∧
    computeObjective ⟨2/5, 0, [-2, 5], 9/20, 2/5, 1/20, 3⟩
        [(-10, CoefficientSample.notConv), (0, CoefficientSample.notConv)] =
      3 * (([((-10 : ℚ), CoefficientSample.notConv), (0, CoefficientSample.notConv)].map
        fun p => 1 - |(0 : ℚ) - p.1| / (alphaMax ⟨2/5, 0, [-2, 5], 9/20, 2/5, 1/20, 3⟩ -
          alphaMin ⟨2/5, 0, [-2, 5], 9/20, 2/5, 1/20, 3⟩)).sum) :=
  ⟨by norm_num [alphaMin, alphaMax, listMin, listMax],
   by intro p hp; simp at hp; rcases hp with h | h <;> simp [h],
   notConverged_polar_scores_penalty_times_weights _ _
     (by norm_num [alphaMin, alphaMax, listMin, listMax])
     (by intro p hp; simp at hp; rcases hp with h | h <;> simp [h])⟩

/-- C7 (code bug): a polar containing a non-converged sample is absorbed by
scoring (fixed penalty, no exception), but `_write_polar_file` indexes the
stored empty-list marker with the string key `cx`, raising `TypeError`, so
`evaluate_trial` raises instead of completing. -/
theorem notConverged_polar_write_raises :
    evaluateTrial ⟨2/5, 0, [-2, 5], 9/20, 2/5, 1/20, 1⟩ [(0, .notConv)]
        = .error .typeError ∧
    computeObjective ⟨2/5, 0, [-2, 5], 9/20, 2/5, 1/20, 1⟩ [(0, .notConv)] = 1 :=
  ⟨rfl, by norm_num [computeObjective, sampleWeight, sampleObjective, alphaMin, alphaMax,
      listMin, listMax]⟩

/-- C8 counterexample: with a non-converged sample in the polar, scaling the
three weights by `k = 2` does not scale the objective by `2`, because the fixed
penalty `value_not_converged` is not scaled: the score stays `1` instead of
becoming `2`. -/
theorem scaleWeights_notConverged_counterexample :
    computeObjective (scaleWeights 2 ⟨0, 0, [-1, 1], 9/20, 2/5, 1/20, 1⟩)
        [(0, .notConv)] ≠
      2 * computeObjective ⟨0, 0, [-1, 1], 9/20, 2/5, 1/20, 1⟩ [(0, .notConv)] := by
  norm_num [computeObjective, scaleWeights, sampleWeight, sampleObjective, alphaMin,
    alphaMax, listMin, listMax]

theorem sampleWeight_scaleWeights (k : ℚ) (cfg : DataLoaderConfig) (a : ℚ) :
    sampleWeight (scaleWeights k cfg) a = sampleWeight cfg a := rfl

theorem sampleObjective_scaleWeights (k : ℚ) (cfg : DataLoaderConfig) (a : ℚ)
    (s : CoefficientSample) (hs : s ≠ CoefficientSample.notConv) :
    sampleObjective (scaleWeights k cfg) a s = k * sampleObjective cfg a s := by
  cases s with
  | notConv => exact absurd rfl hs
  | conv cx cy cm =>
    simp only [sampleObjective, scaleWeights]
    by_cases h : a = cfg.alphaTarget
    · simp [h]
      ring
    · simp [h]
      ring

/-- C8 amended: for every polar all of whose samples converged, scaling the
three objective weights by a positive constant `k` (penalty fixed) scales the
objective exactly by `k`; the claim fails as soon as a non-converged sample is
present, since its fixed penalty is not scaled. -/
theorem scaleWeights_scales_objective_on_converged_polar
    (k : ℚ) (cfg : DataLoaderConfig) (polar : List (ℚ × CoefficientSample))
    (hk : 0 < k) (hc : ∀ p ∈ polar, p.2 ≠ CoefficientSample.notConv) :
    computeObjective (scaleWeights k cfg) polar = k * computeObjective cfg polar := by
  induction polar with
  | nil => simp [computeObjective_nil]
  | cons p ps ih =>
    have hp := hc p (List.mem_cons_self p ps)
    have ih' := ih fun q hq => hc q (List.mem_cons_of_mem p hq)
    rw [computeObjective_cons, computeObjective_cons, ih',
      sampleWeight_scaleWeights, sampleObjective_scaleWeights k cfg p.1 p.2 hp]
    ring

/-- Witness for C8 at a concrete input: `k = 2` on a converged two-angle polar. -/
theorem scaleWeights_scales_objective_on_converged_polar_witness :
    (0 : ℚ) < 2 ∧
    (∀ p ∈ [((1 : ℚ), CoefficientSample.conv 2 3 4), (0, CoefficientSample.conv 1 1 1)],
        p.2 ≠ CoefficientSample.notConv) ∧
    computeObjective (scaleWeights 2 ⟨3, 1, [-2, 5], 9/20, 2/5, 1/20, 7⟩)
        [(1, CoefficientSample.conv 2 3 4), (0, CoefficientSample.conv 1 1 1)] =
      2 * computeObjective ⟨3, 1, [-2, 5], 9/20, 2/5, 1/20, 7⟩
        [(1, CoefficientSample.conv 2 3 4), (0, CoefficientSample.conv 1 1 1)] :=
  ⟨by norm_num,
   by intro p hp; simp at hp; rcases hp with h | h <;> simp [h],
   scaleWeights_scales_objective_on_converged_polar 2 _ _ (by norm_num)
     (by intro p hp; simp at hp; rcases hp with h | h <;> simp [h])⟩

/-- C4: with `xf = 0` the geometry generation fails — the scalar division by
`pow(xf, 2)` in `_compute_camber_line` raises (Python `ZeroDivisionError`, the
condition the spec's taxonomy names `InvalidParameter`) — and the failure
happens before any output file is written, so no partial dat-file rows exist. -/
theorem xf_zero_fails_before_write (cfg : DiscretizationConfig) (p : ShapeParameters)
    (h : p.xf = 0) :
    generateAirfoil cfg p = .error .divisionByZero ∧
    generateDatRows cfg p = .error .divisionByZero := by
  constructor
  · rw [generateAirfoil, if_pos h]
  · rw [generateDatRows, generateAirfoil, if_pos h]
    rfl

/-- Witness for C4 at a concrete input: `xf = 0` with the remaining parameters
taken from the repository's example airfoil. -/
theorem xf_zero_fails_before_write_witness :
    (⟨1/2, 1, 3/5, 1/100, 0, 2/25⟩ : ShapeParameters).xf = 0 ∧
    generateAirfoil ⟨1000, true, 0, 1⟩ ⟨1/2, 1, 3/5, 1/100, 0, 2/25⟩ =
        .error .divisionByZero ∧
    generateDatRows ⟨1000, true, 0, 1⟩ ⟨1/2, 1, 3/5, 1/100, 0, 2/25⟩ =
        .error .divisionByZero :=
  ⟨rfl, xf_zero_fails_before_write _ _ rfl⟩

/-- C3 counterexample: with `kr = 0` (all remaining parameters valid) the
generator raises nothing — `generate_airfoil` contains no parameter validation
— and generation succeeds, the degenerate shape function `x / 0 + 0 * (1 - x)`
being an elementwise tensor division that silently produces non-finite floats
rather than an `InvalidParameter` error. -/
theorem degenerate_kr_no_error_counterexample :
    generateAirfoil ⟨10, true, 0, 1⟩ ⟨1, 1, 0, 0, 1/2, 1/10⟩ =
      .ok (outlineX ⟨10, true, 0, 1⟩, outlineY ⟨10, true, 0, 1⟩ ⟨1, 1, 0, 0, 1/2, 1/10⟩) := by
  rw [generateAirfoil, if_neg]
  norm_num

/-- C3 amended: degenerate shape parameters — `n1 ≤ 0`, `n2 ≤ 0` or `kr = 0` —
do not make geometry generation fail with an `InvalidParameter` error: the code
validates nothing and completes normally, silently computing the degenerate
thickness distribution; the only input that aborts generation is `xf = 0`. -/
theorem degenerate_parameters_raise_no_error (cfg : DiscretizationConfig)
    (p : ShapeParameters) (hdeg : p.n1 ≤ 0 ∨ p.n2 ≤ 0 ∨ p.kr = 0) (hxf : p.xf ≠ 0) :
    generateAirfoil cfg p = .ok (outlineX cfg, outlineY cfg p) := by
  rw [generateAirfoil, if_neg hxf]

/-- Witness for C3 (amended) at a concrete input: `n1 = -1 ≤ 0`. -/
theorem degenerate_parameters_raise_no_error_witness :
    ((⟨-1, 1, 1, 0, 1/2, 1/10⟩ : ShapeParameters).n1 ≤ 0 ∨
      (⟨-1, 1, 1, 0, 1/2, 1/10⟩ : ShapeParameters).n2 ≤ 0 ∨
      (⟨-1, 1, 1, 0, 1/2, 1/10⟩ : ShapeParameters).kr = 0) ∧
    (⟨-1, 1, 1, 0, 1/2, 1/10⟩ : ShapeParameters).xf ≠ 0 ∧
    generateAirfoil ⟨50, false, 0, 1⟩ ⟨-1, 1, 1, 0, 1/2, 1/10⟩ =
      .ok (outlineX ⟨50, false, 0, 1⟩,
        outlineY ⟨50, false, 0, 1⟩ ⟨-1, 1, 1, 0, 1/2, 1/10⟩) :=
  ⟨Or.inl (by norm_num), by norm_num,
   degenerate_parameters_raise_no_error _ _ (Or.inl (by norm_num)) (by norm_num)⟩

theorem rawX_eq_map (cfg : DiscretizationConfig) :
    rawX cfg = (List.range cfg.nPoints).map (rawXF cfg) := by
  cases hc : cfg.cosineDistributed <;>
    simp [rawX, rawXF, linspace, hc, List.map_map, Function.comp]

theorem getD_map_range (f : ℕ → ℝ) (n i : ℕ) (h : i < n) :
    ((List.range n).map f).getD i 0 = f i := by
  rw [List.getD_eq_getElem?_getD]
  simp [List.getElem?_map, List.getElem?_range h]

theorem linspaceF_zero_one (n i : ℕ) : linspaceF 0 1 n i = i / ((n : ℝ) - 1) := by
  simp [linspaceF]

theorem half_one_sub_cos_lt (h : ℝ) (hh0 : 0 < h) (hh3 : h ≤ 1 / 3) :
    (1 - Real.cos (Real.pi * h)) / 2 < h := by
  have hb := @Real.one_sub_sq_div_two_le_cos (Real.pi * h)
  have hpi : Real.pi < 3.15 := Real.pi_lt_d2
  have hpi0 : 0 < Real.pi := Real.pi_pos
  have hp2 : Real.pi ^ 2 < 10 := by
    have h1 : Real.pi * Real.pi < 3.15 * Real.pi := mul_lt_mul_of_pos_right hpi hpi0
    have h2 : (3.15 : ℝ) * Real.pi < 3.15 * 3.15 := by
      apply mul_lt_mul_of_pos_left hpi
      norm_num
    rw [pow_two]
    nlinarith [h1, h2]
  have e2 : (Real.pi * h) ^ 2 = Real.pi ^ 2 * h ^ 2 := by ring
  have e3 : Real.pi ^ 2 * h ^ 2 ≤ 10 * h ^ 2 :=
    mul_le_mul_of_nonneg_right hp2.le (sq_nonneg h)
  have e4 : h ^ 2 ≤ h / 3 := by nlinarith [hh0, hh3]
  linarith

/-- C9 counterexample: with `n_points = 3` (and the default chord bounds
`x_start = 0`, `x_stop = 1`) the cosine-distributed samples are `[0, 1/2, 1]`,
identical to the uniform samples, so the spacing near `x_start` is *not*
smaller than the uniform spacing — the claim fails for `n_points = 3` although
it demands strictly denser spacing for every `n_points > 2`. -/
theorem cosine_spacing_n3_counterexample :
    ¬((rawX ⟨3, true, 0, 1⟩).getD 1 0 - (rawX ⟨3, true, 0, 1⟩).getD 0 0 <
      (linspace 0 1 3).getD 1 0 - (linspace 0 1 3).getD 0 0) := by
  have hc : Real.cos (Real.pi * (1 / 2)) = 0 := by
    rw [show Real.pi * (1 / 2) = Real.pi / 2 by ring]
    exact Real.cos_pi_div_two
  have h1 : (rawX ⟨3, true, 0, 1⟩).getD 1 0 = 1 / 2 := by
    rw [rawX_eq_map, getD_map_range _ _ _ (by norm_num)]
    show cosineDistribution _ (linspaceF 0 1 3 1) = 1 / 2
    rw [linspaceF_zero_one]
    norm_num [cosineDistribution, hc]
  have h0 : (rawX ⟨3, true, 0, 1⟩).getD 0 0 = 0 := by
    rw [rawX_eq_map, getD_map_range _ _ _ (by norm_num)]
    show cosineDistribution _ (linspaceF 0 1 3 0) = 0
    rw [linspaceF_zero_one]
    norm_num [cosineDistribution]
  have hu1 : (linspace 0 1 3).getD 1 0 = 1 / 2 := by
    rw [linspace, getD_map_range _ _ _ (by norm_num), linspaceF_zero_one]
    norm_num
  have hu0 : (linspace 0 1 3).getD 0 0 = 0 := by
    rw [linspace, getD_map_range _ _ _ (by norm_num), linspaceF_zero_one]
    norm_num
  rw [h1, h0, hu1, hu0]
  simp

/-- C9 amended: with the default chord bounds `x_start = 0`, `x_stop = 1` and
`n_points ≥ 4`, the cosine-distributed samples are strictly denser near both
ends than the uniform samples: the first and the last gap are each strictly
smaller than the corresponding uniform gap `1/(n_points - 1)`.  (At
`n_points = 3` the two spacings coincide, and for chord bounds outside `[0, 1]`
the cosine remap is not even monotone, so the claim is restricted to the
default bounds.) -/
theorem cosine_spacing_denser_at_ends (n : ℕ) (hn : 4 ≤ n) :
    (rawX ⟨n, true, 0, 1⟩).getD 1 0 - (rawX ⟨n, true, 0, 1⟩).getD 0 0 <
      (linspace 0 1 n).getD 1 0 - (linspace 0 1 n).getD 0 0 ∧
    (rawX ⟨n, true, 0, 1⟩).getD (n - 1) 0 - (rawX ⟨n, true, 0, 1⟩).getD (n - 2) 0 <
      (linspace 0 1 n).getD (n - 1) 0 - (linspace 0 1 n).getD (n - 2) 0 := by
  have hnR : (4 : ℝ) ≤ (n : ℝ) := by exact_mod_cast hn
  have hden : (0 : ℝ) < (n : ℝ) - 1 := by linarith
  have hh0 : 0 < 1 / ((n : ℝ) - 1) := by positivity
  have hh3 : 1 / ((n : ℝ) - 1) ≤ 1 / 3 := by
    rw [div_le_div_iff hden (by norm_num)]
    linarith
  have key := half_one_sub_cos_lt (1 / ((n : ℝ) - 1)) hh0 hh3
  have hcast1 : ((n - 1 : ℕ) : ℝ) = (n : ℝ) - 1 := by
    have : (1 : ℕ) ≤ n := by omega
    push_cast [this]
    ring
  have hcast2 : ((n - 2 : ℕ) : ℝ) = (n : ℝ) - 2 := by
    have : (2 : ℕ) ≤ n := by omega
    push_cast [this]
    ring
  have eu : ∀ i : ℕ, i < n → (linspace 0 1 n).getD i 0 = (i : ℝ) / ((n : ℝ) - 1) := by
    intro i hi
    rw [linspace, getD_map_range _ _ _ hi, linspaceF_zero_one]
  have ec : ∀ i : ℕ, i < n →
      (rawX ⟨n, true, 0, 1⟩).getD i 0 =
        (1 - Real.cos (Real.pi * ((i : ℝ) / ((n : ℝ) - 1)))) / 2 := by
    intro i hi
    rw [rawX_eq_map, getD_map_range _ _ _ hi]
    show cosineDistribution _ (linspaceF 0 1 n i) = _
    rw [linspaceF_zero_one]
    simp [cosineDistribution]
    ring
  have hdne : (n : ℝ) - 1 ≠ 0 := ne_of_gt hden
  constructor
  · rw [ec 1 (by omega), ec 0 (by omega), eu 1 (by omega), eu 0 (by omega)]
    have key' : (1 - Real.cos (Real.pi * ((n : ℝ) - 1)⁻¹)) / 2 < ((n : ℝ) - 1)⁻¹ := by
      simp only [← one_div]
      exact key
    norm_num
    linarith [key']
  · rw [ec (n - 1) (by omega), ec (n - 2) (by omega), eu (n - 1) (by omega),
      eu (n - 2) (by omega), hcast1, hcast2]
    have hlast : ((n : ℝ) - 1) / ((n : ℝ) - 1) = 1 := div_self hdne
    have hprev : Real.pi * (((n : ℝ) - 2) / ((n : ℝ) - 1)) =
        Real.pi - Real.pi * (1 / ((n : ℝ) - 1)) := by
      field_simp
      ring
    have hdiff : ((n : ℝ) - 1) / ((n : ℝ) - 1) - ((n : ℝ) - 2) / ((n : ℝ) - 1) =
        1 / ((n : ℝ) - 1) := by
      rw [div_sub_div_same]
      norm_num
    rw [hprev, Real.cos_pi_sub, hdiff, hlast, mul_one, Real.cos_pi]
    linarith [key]

/-- Witness for C9 (amended) at the concrete input `n_points = 4`. -/
theorem cosine_spacing_denser_at_ends_witness :
    4 ≤ 4 ∧
    ((rawX ⟨4, true, 0, 1⟩).getD 1 0 - (rawX ⟨4, true, 0, 1⟩).getD 0 0 <
      (linspace 0 1 4).getD 1 0 - (linspace 0 1 4).getD 0 0 ∧
    (rawX ⟨4, true, 0, 1⟩).getD (4 - 1) 0 - (rawX ⟨4, true, 0, 1⟩).getD (4 - 2) 0 <
      (linspace 0 1 4).getD (4 - 1) 0 - (linspace 0 1 4).getD (4 - 2) 0) :=
  ⟨by norm_num, cosine_spacing_denser_at_ends 4 (by norm_num)⟩

theorem foldl_min_le_init {α : Type} [LinearOrder α] (xs : List α) (a : α) :
    xs.foldl min a ≤ a := by
  induction xs generalizing a with
  | nil => exact le_refl a
  | cons x xs ih => exact le_trans (ih (min a x)) (min_le_left a x)

theorem foldl_min_le_mem {α : Type} [LinearOrder α] (xs : List α) (a x : α) (hx : x ∈ xs) :
    xs.foldl min a ≤ x := by
  induction xs generalizing a with
  | nil => cases hx
  | cons y ys ih =>
    rcases List.mem_cons.mp hx with h | h
    · subst h
      exact le_trans (foldl_min_le_init ys (min a x)) (min_le_right a x)
    · exact ih _ h

theorem foldl_min_eq_or_mem {α : Type} [LinearOrder α] (xs : List α) (a : α) :
    xs.foldl min a = a ∨ xs.foldl min a ∈ xs := by
  induction xs generalizing a with
  | nil => exact Or.inl rfl
  | cons y ys ih =>
    rcases ih (min a y) with h | h
    · rcases min_choice a y with hm | hm
      · exact Or.inl (by rw [List.foldl_cons, h, hm])
      · exact Or.inr (by rw [List.foldl_cons, h, hm]; exact List.mem_cons_self y ys)
    · exact Or.inr (List.mem_cons_of_mem y h)

theorem foldl_max_init_le {α : Type} [LinearOrder α] (xs : List α) (a : α) :
    a ≤ xs.foldl max a := by
  induction xs generalizing a with
  | nil => exact le_refl a
  | cons x xs ih => exact le_trans (le_max_left a x) (ih (max a x))

theorem foldl_max_mem_le {α : Type} [LinearOrder α] (xs : List α) (a x : α) (hx : x ∈ xs) :
    x ≤ xs.foldl max a := by
  induction xs generalizing a with
  | nil => cases hx
  | cons y ys ih =>
    rcases List.mem_cons.mp hx with h | h
    · subst h
      exact le_trans (le_max_right a x) (foldl_max_init_le ys (max a x))
    · exact ih _ h

theorem foldl_max_eq_or_mem {α : Type} [LinearOrder α] (xs : List α) (a : α) :
    xs.foldl max a = a ∨ xs.foldl max a ∈ xs := by
  induction xs generalizing a with
  | nil => exact Or.inl rfl
  | cons y ys ih =>
    rcases ih (max a y) with h | h
    · rcases max_choice a y with hm | hm
      · exact Or.inl (by rw [List.foldl_cons, h, hm])
      · exact Or.inr (by rw [List.foldl_cons, h, hm]; exact List.mem_cons_self y ys)
    · exact Or.inr (List.mem_cons_of_mem y h)

theorem listMin_le {α : Type} [LinearOrder α] [Zero α] (xs : List α) (x : α) (hx : x ∈ xs) :
    listMin xs ≤ x := by
  cases xs with
  | nil => cases hx
  | cons y ys =>
    rcases List.mem_cons.mp hx with h | h
    · subst h
      exact foldl_min_le_init ys x
    · exact foldl_min_le_mem ys y x h

theorem listMin_mem {α : Type} [LinearOrder α] [Zero α] (xs : List α) (hne : xs ≠ []) :
    listMin xs ∈ xs := by
  cases xs with
  | nil => exact absurd rfl hne
  | cons y ys =>
    rcases foldl_min_eq_or_mem ys y with h | h
    · show ys.foldl min y ∈ y :: ys
      rw [h]
      exact List.mem_cons_self y ys
    · exact List.mem_cons_of_mem y h

theorem listMin_eq {α : Type} [LinearOrder α] [Zero α] (xs : List α) (m : α) (hm : m ∈ xs)
    (hle : ∀ x ∈ xs, m ≤ x) : listMin xs = m :=
  le_antisymm (listMin_le xs m hm) (hle _ (listMin_mem xs (List.ne_nil_of_mem hm)))

theorem le_listMax {α : Type} [LinearOrder α] [Zero α] (xs : List α) (x : α) (hx : x ∈ xs) :
    x ≤ listMax xs := by
  cases xs with
  | nil => cases hx
  | cons y ys =>
    rcases List.mem_cons.mp hx with h | h
    · subst h
      exact foldl_max_init_le ys x
    · exact foldl_max_mem_le ys y x h

theorem listMax_mem {α : Type} [LinearOrder α] [Zero α] (xs : List α) (hne : xs ≠ []) :
    listMax xs ∈ xs := by
  cases xs with
  | nil => exact absurd rfl hne
  | cons y ys =>
    rcases foldl_max_eq_or_mem ys y with h | h
    · show ys.foldl max y ∈ y :: ys
      rw [h]
      exact List.mem_cons_self y ys
    · exact List.mem_cons_of_mem y h

theorem listMax_eq {α : Type} [LinearOrder α] [Zero α] (xs : List α) (m : α) (hm : m ∈ xs)
    (hle : ∀ x ∈ xs, x ≤ m) : listMax xs = m :=
  le_antisymm (hle _ (listMax_mem xs (List.ne_nil_of_mem hm))) (le_listMax xs m hm)

theorem linspaceF_zero (a b : ℝ) (n : ℕ) : linspaceF a b n 0 = a := by
  simp [linspaceF]

theorem linspaceF_last (a b : ℝ) (n : ℕ) (hn : 2 ≤ n) : linspaceF a b n (n - 1) = b := by
  have h1 : ((n - 1 : ℕ) : ℝ) = (n : ℝ) - 1 := by
    have h : (1 : ℕ) ≤ n := by omega
    push_cast [h]
    ring
  have hnR : (2 : ℝ) ≤ (n : ℝ) := by exact_mod_cast hn
  have hne : (n : ℝ) - 1 ≠ 0 := by linarith
  rw [linspaceF, h1]
  field_simp

theorem linspaceF_bounds (a b : ℝ) (n : ℕ) (hab : a ≤ b) (hn : 2 ≤ n) (i : ℕ) (hi : i < n) :
    a ≤ linspaceF a b n i ∧ linspaceF a b n i ≤ b := by
  have hnR : (2 : ℝ) ≤ (n : ℝ) := by exact_mod_cast hn
  have hden : (0 : ℝ) < (n : ℝ) - 1 := by linarith
  have hiR : (i : ℝ) ≤ (n : ℝ) - 1 := by
    have h2 : i ≤ n - 1 := by omega
    have h3 : ((i : ℕ) : ℝ) ≤ ((n - 1 : ℕ) : ℝ) := by exact_mod_cast h2
    have h4 : ((n - 1 : ℕ) : ℝ) = (n : ℝ) - 1 := by
      push_cast [show (1 : ℕ) ≤ n by omega]
      ring
    rw [h4] at h3
    exact h3
  constructor
  · rw [linspaceF]
    have h5 : 0 ≤ (i : ℝ) * (b - a) / ((n : ℝ) - 1) :=
      div_nonneg (mul_nonneg (Nat.cast_nonneg i) (by linarith)) hden.le
    linarith
  · rw [linspaceF]
    have h4 : (i : ℝ) * (b - a) ≤ ((n : ℝ) - 1) * (b - a) :=
      mul_le_mul_of_nonneg_right hiR (by linarith)
    have h5 : (i : ℝ) * (b - a) / ((n : ℝ) - 1) ≤ ((n : ℝ) - 1) * (b - a) / ((n : ℝ) - 1) := by
      gcongr
    have h6 : ((n : ℝ) - 1) * (b - a) / ((n : ℝ) - 1) = b - a := by
      field_simp
    linarith

theorem linspaceF_strictMono (a b : ℝ) (n : ℕ) (hab : a < b) (i j : ℕ) (hij : i < j)
    (hj : j < n) : linspaceF a b n i < linspaceF a b n j := by
  have hn : 2 ≤ n := by omega
  have hnR : (2 : ℝ) ≤ (n : ℝ) := by exact_mod_cast hn
  have hden : (0 : ℝ) < (n : ℝ) - 1 := by linarith
  have hijR : (i : ℝ) < (j : ℝ) := by exact_mod_cast hij
  rw [linspaceF, linspaceF]
  have h1 : (i : ℝ) * (b - a) < (j : ℝ) * (b - a) :=
    mul_lt_mul_of_pos_right hijR (by linarith)
  have h2 : (i : ℝ) * (b - a) / ((n : ℝ) - 1) < (j : ℝ) * (b - a) / ((n : ℝ) - 1) := by
    rw [div_lt_div_iff hden hden]
    exact mul_lt_mul_of_pos_right h1 hden
  linarith

theorem rawXF_strictMono (cfg : DiscretizationConfig) (hn : 2 ≤ cfg.nPoints)
    (hst : cfg.xStart < cfg.xStop)
    (hcos : cfg.cosineDistributed = true → 0 ≤ cfg.xStart ∧ cfg.xStop ≤ 1) :
    ∀ i j, i < j → j < cfg.nPoints → rawXF cfg i < rawXF cfg j := by
  intro i j hij hj
  cases hc : cfg.cosineDistributed with
  | false =>
    simp only [rawXF, hc, Bool.false_eq_true, if_false]
    exact linspaceF_strictMono _ _ _ hst i j hij hj
  | true =>
    obtain ⟨h0, h1⟩ := hcos hc
    simp only [rawXF, hc, if_true]
    rw [cosineDistribution, cosineDistribution]
    have hi : i < cfg.nPoints := lt_trans hij hj
    have hbi := linspaceF_bounds _ _ _ hst.le hn i hi
    have hbj := linspaceF_bounds _ _ _ hst.le hn j hj
    have hfij := linspaceF_strictMono _ _ _ hst i j hij hj
    have hmem_i : Real.pi * linspaceF cfg.xStart cfg.xStop cfg.nPoints i ∈
        Set.Icc 0 Real.pi := by
      constructor
      · exact mul_nonneg Real.pi_pos.le (by linarith [hbi.1])
      · calc Real.pi * linspaceF cfg.xStart cfg.xStop cfg.nPoints i
            ≤ Real.pi * 1 :=
              mul_le_mul_of_nonneg_left (by linarith [hbi.2]) Real.pi_pos.le
          _ = Real.pi := mul_one _
    have hmem_j : Real.pi * linspaceF cfg.xStart cfg.xStop cfg.nPoints j ∈
        Set.Icc 0 Real.pi := by
      constructor
      · exact mul_nonneg Real.pi_pos.le (by linarith [hbj.1])
      · calc Real.pi * linspaceF cfg.xStart cfg.xStop cfg.nPoints j
            ≤ Real.pi * 1 :=
              mul_le_mul_of_nonneg_left (by linarith [hbj.2]) Real.pi_pos.le
          _ = Real.pi := mul_one _
    have hcoslt : Real.cos (Real.pi * linspaceF cfg.xStart cfg.xStop cfg.nPoints j) <
        Real.cos (Real.pi * linspaceF cfg.xStart cfg.xStop cfg.nPoints i) :=
      Real.strictAntiOn_cos hmem_i hmem_j (mul_lt_mul_of_pos_left hfij Real.pi_pos)
    have hpos : 0 < (cfg.xStop - cfg.xStart) / 2 := by linarith
    apply mul_lt_mul_of_pos_left _ hpos
    linarith

theorem rawX_listMin (cfg : DiscretizationConfig) (hn : 2 ≤ cfg.nPoints)
    (hst : cfg.xStart < cfg.xStop)
    (hcos : cfg.cosineDistributed = true → 0 ≤ cfg.xStart ∧ cfg.xStop ≤ 1) :
    listMin (rawX cfg) = rawXF cfg 0 := by
  rw [rawX_eq_map]
  apply listMin_eq
  · exact List.mem_map_of_mem _ (List.mem_range.mpr (by omega))
  · intro x hx
    obtain ⟨i, hi, rfl⟩ := List.mem_map.mp hx
    have hi' := List.mem_range.mp hi
    rcases Nat.eq_zero_or_pos i with h | h
    · subst h
      exact le_refl _
    · exact (rawXF_strictMono cfg hn hst hcos 0 i h hi').le

theorem rawX_listMax (cfg : DiscretizationConfig) (hn : 2 ≤ cfg.nPoints)
    (hst : cfg.xStart < cfg.xStop)
    (hcos : cfg.cosineDistributed = true → 0 ≤ cfg.xStart ∧ cfg.xStop ≤ 1) :
    listMax (rawX cfg) = rawXF cfg (cfg.nPoints - 1) := by
  rw [rawX_eq_map]
  apply listMax_eq
  · exact List.mem_map_of_mem _ (List.mem_range.mpr (by omega))
  · intro x hx
    obtain ⟨i, hi, rfl⟩ := List.mem_map.mp hx
    have hi' := List.mem_range.mp hi
    rcases Nat.lt_or_ge i (cfg.nPoints - 1) with h | h
    · exact (rawXF_strictMono cfg hn hst hcos i _ h (by omega)).le
    · have : i = cfg.nPoints - 1 := by omega
      rw [this]

theorem unitX_eq_map (cfg : DiscretizationConfig) (hn : 2 ≤ cfg.nPoints)
    (hst : cfg.xStart < cfg.xStop)
    (hcos : cfg.cosineDistributed = true → 0 ≤ cfg.xStart ∧ cfg.xStop ≤ 1) :
    unitX cfg = (List.range cfg.nPoints).map (unitXF cfg) := by
  rw [unitX, scaleX, rawX_listMin cfg hn hst hcos, rawX_listMax cfg hn hst hcos,
    rawX_eq_map, List.map_map]
  rfl

theorem unitXF_zero (cfg : DiscretizationConfig) : unitXF cfg 0 = 0 := by
  rw [unitXF]
  simp

theorem rawXF_den_pos (cfg : DiscretizationConfig) (hn : 2 ≤ cfg.nPoints)
    (hst : cfg.xStart < cfg.xStop)
    (hcos : cfg.cosineDistributed = true → 0 ≤ cfg.xStart ∧ cfg.xStop ≤ 1) :
    0 < rawXF cfg (cfg.nPoints - 1) - rawXF cfg 0 :=
  sub_pos.mpr (rawXF_strictMono cfg hn hst hcos 0 _ (by omega) (by omega))

theorem unitXF_last (cfg : DiscretizationConfig) (hn : 2 ≤ cfg.nPoints)
    (hst : cfg.xStart < cfg.xStop)
    (hcos : cfg.cosineDistributed = true → 0 ≤ cfg.xStart ∧ cfg.xStop ≤ 1) :
    unitXF cfg (cfg.nPoints - 1) = 1 := by
  rw [unitXF]
  exact div_self (ne_of_gt (rawXF_den_pos cfg hn hst hcos))

theorem unitXF_strictMono (cfg : DiscretizationConfig) (hn : 2 ≤ cfg.nPoints)
    (hst : cfg.xStart < cfg.xStop)
    (hcos : cfg.cosineDistributed = true → 0 ≤ cfg.xStart ∧ cfg.xStop ≤ 1) :
    ∀ i j, i < j → j < cfg.nPoints → unitXF cfg i < unitXF cfg j := by
  intro i j hij hj
  have hden := rawXF_den_pos cfg hn hst hcos
  have h1 := rawXF_strictMono cfg hn hst hcos i j hij hj
  rw [unitXF, unitXF, div_lt_div_iff hden hden]
  exact mul_lt_mul_of_pos_right (by linarith) hden

theorem unitXF_bounds (cfg : DiscretizationConfig) (hn : 2 ≤ cfg.nPoints)
    (hst : cfg.xStart < cfg.xStop)
    (hcos : cfg.cosineDistributed = true → 0 ≤ cfg.xStart ∧ cfg.xStop ≤ 1)
    (i : ℕ) (hi : i < cfg.nPoints) : 0 ≤ unitXF cfg i ∧ unitXF cfg i ≤ 1 := by
  constructor
  · rcases Nat.eq_zero_or_pos i with h | h
    · subst h
      rw [unitXF_zero]
    · have := unitXF_strictMono cfg hn hst hcos 0 i h hi
      rw [unitXF_zero] at this
      exact this.le
  · rcases Nat.lt_or_ge i (cfg.nPoints - 1) with h | h
    · have := unitXF_strictMono cfg hn hst hcos i _ h (by omega)
      rw [unitXF_last cfg hn hst hcos] at this
      exact this.le
    · have hieq : i = cfg.nPoints - 1 := by omega
      rw [hieq, unitXF_last cfg hn hst hcos]

theorem reverse_dropLast {α : Type} (l : List α) : l.reverse.dropLast = l.tail.reverse := by
  cases l with
  | nil => rfl
  | cons x xs => simp [List.dropLast_concat]

theorem head?_append_left {α : Type} (a b : List α) (h : a ≠ []) :
    (a ++ b).head? = a.head? := by
  cases a with
  | nil => exact absurd rfl h
  | cons x xs => rfl

theorem getLast?_tail {α : Type} (l : List α) (h : l.tail ≠ []) :
    l.tail.getLast? = l.getLast? := by
  cases l with
  | nil => rfl
  | cons x xs =>
    cases xs with
    | nil => exact absurd rfl h
    | cons y ys => exact (List.getLast?_cons_cons).symm

theorem dropLast_map {α β : Type} (g : α → β) (l : List α) :
    (l.map g).dropLast = l.dropLast.map g := by
  induction l with
  | nil => rfl
  | cons x xs ih =>
    cases xs with
    | nil => rfl
    | cons y ys => simpa using ih

theorem map_revConcat {α β : Type} (g : α → β) (l₁ l₂ : List α) :
    (l₁.reverse.dropLast ++ l₂).map g = (l₁.map g).reverse.dropLast ++ l₂.map g := by
  rw [List.map_append, ← List.map_reverse, dropLast_map]

theorem map_range_head? (f : ℕ → ℝ) (n : ℕ) (hn : 1 ≤ n) :
    ((List.range n).map f).head? = some (f 0) := by
  obtain ⟨m, rfl⟩ : ∃ m, n = m + 1 := ⟨n - 1, by omega⟩
  simp [List.range_succ_eq_map]

theorem map_range_getLast? (f : ℕ → ℝ) (n : ℕ) (hn : 1 ≤ n) :
    ((List.range n).map f).getLast? = some (f (n - 1)) := by
  obtain ⟨m, rfl⟩ : ∃ m, n = m + 1 := ⟨n - 1, by omega⟩
  simp [List.range_succ]

theorem map_range_decomp (f : ℕ → ℝ) (m : ℕ) :
    (List.range (m + 1)).map f = f 0 :: (List.range m).map fun i => f (i + 1) := by
  rw [List.range_succ_eq_map, List.map_cons, List.map_map]
  rfl

theorem pairwise_lt_map_range (f : ℕ → ℝ) (n : ℕ)
    (hmono : ∀ i j, i < j → j < n → f i < f j) :
    List.Pairwise (· < ·) ((List.range n).map f) := by
  have hp : List.Pairwise (· < ·) (List.range n) := List.pairwise_lt_range n
  have hp2 : List.Pairwise (fun a b => f a < f b) (List.range n) :=
    List.Pairwise.imp_of_mem (fun _ hb hab => hmono _ _ hab (List.mem_range.mp hb)) hp
  exact List.pairwise_map.mpr hp2

theorem revConcat_take {α : Type} (l₁ l₂ : List α) (n : ℕ) (h₁ : l₁.length = n)
    (h₂ : l₂.length = n) (hn : 1 ≤ n) (hh : l₁.head? = l₂.head?) :
    (l₁.reverse.dropLast ++ l₂).take n = l₁.reverse := by
  cases l₁ with
  | nil => simp at h₁; omega
  | cons a as =>
    cases l₂ with
    | nil => simp at h₂; omega
    | cons b bs =>
      have hab : a = b := by
        simpa using hh
      have hlen : as.reverse.length = n - 1 := by
        simp at h₁ ⊢
        omega
      rw [reverse_dropLast]
      show (as.reverse ++ b :: bs).take n = (a :: as).reverse
      have hn' : n = as.reverse.length + 1 := by omega
      rw [hn', List.take_append 1]
      simp [hab, List.reverse_cons]

theorem revConcat_drop {α : Type} (l₁ l₂ : List α) (n : ℕ) (h₁ : l₁.length = n) :
    (l₁.reverse.dropLast ++ l₂).drop (n - 1) = l₂ := by
  have hlen : l₁.reverse.dropLast.length = n - 1 := by
    simp [h₁]
  rw [← hlen]
  exact List.drop_left _ _

theorem revConcat_head? {α : Type} (l₁ l₂ : List α) (h : 2 ≤ l₁.length) :
    (l₁.reverse.dropLast ++ l₂).head? = l₁.getLast? := by
  cases l₁ with
  | nil => simp at h
  | cons a as =>
    have has : as ≠ [] := by
      intro hc
      rw [hc] at h
      simp at h
    rw [reverse_dropLast]
    show (as.reverse ++ l₂).head? = _
    rw [head?_append_left _ _ (by simpa using has), List.head?_reverse]
    exact getLast?_tail (a :: as) (by simpa using has)

theorem revConcat_getLast? {α : Type} (l₁ l₂ : List α) (h : l₂ ≠ []) :
    (l₁.reverse.dropLast ++ l₂).getLast? = l₂.getLast? :=
  List.getLast?_append_of_ne_nil _ h

theorem revConcat_mem {α : Type} (l₁ l₂ : List α) (x : α)
    (hx : x ∈ l₁.reverse.dropLast ++ l₂) : x ∈ l₁ ∨ x ∈ l₂ := by
  rcases List.mem_append.mp hx with h | h
  · left
    have h2 : x ∈ l₁.reverse := List.dropLast_subset _ h
    exact List.mem_reverse.mp h2
  · right
    exact h

theorem revConcat_count {α : Type} [DecidableEq α] (a : α) (tl : List α)
    (hnd : (a :: tl).Nodup) :
    ((a :: tl).reverse.dropLast ++ (a :: tl)).count a = 1 := by
  rw [List.count_append, reverse_dropLast]
  show (tl.reverse.count a) + _ = 1
  rw [List.count_reverse, List.count_cons_self]
  have hnotin : a ∉ tl := (List.nodup_cons.mp hnd).1
  rw [List.count_eq_zero.mpr hnotin]

theorem classFunction_zero (p : ShapeParameters) (hn1 : p.n1 ≠ 0) :
    classFunction p 0 = 0 := by
  rw [classFunction, Real.zero_rpow hn1, zero_mul]

theorem classFunction_one (p : ShapeParameters) (hn2 : p.n2 ≠ 0) :
    classFunction p 1 = 0 := by
  rw [classFunction, show (1 : ℝ) - 1 = 0 by norm_num, Real.zero_rpow hn2, mul_zero]

theorem thicknessAt_zero (p : ShapeParameters) (hn1 : p.n1 ≠ 0) : thicknessAt p 0 = 0 := by
  rw [thicknessAt, classFunction_zero p hn1, zero_mul]

theorem thicknessAt_one (p : ShapeParameters) (hn2 : p.n2 ≠ 0) : thicknessAt p 1 = 0 := by
  rw [thicknessAt, classFunction_one p hn2, zero_mul]

theorem camberAt_zero (p : ShapeParameters) : camberAt p 0 = 0 := by
  simp [camberAt]

theorem camberAt_one (p : ShapeParameters) : camberAt p 1 = 0 := by
  simp [camberAt]

theorem suctionSideAt_zero (cfg : DiscretizationConfig) (p : ShapeParameters)
    (hn1 : p.n1 ≠ 0) : suctionSideAt cfg p 0 = 0 := by
  rw [suctionSideAt, thicknessAt_zero p hn1, camberAt_zero]
  ring

theorem suctionSideAt_one (cfg : DiscretizationConfig) (p : ShapeParameters)
    (hn2 : p.n2 ≠ 0) : suctionSideAt cfg p 1 = 0 := by
  rw [suctionSideAt, thicknessAt_one p hn2, camberAt_one]
  ring

theorem pressureSideAt_zero (cfg : DiscretizationConfig) (p : ShapeParameters)
    (hn1 : p.n1 ≠ 0) : pressureSideAt cfg p 0 = 0 := by
  rw [pressureSideAt, thicknessAt_zero p hn1, camberAt_zero]
  ring

theorem pressureSideAt_one (cfg : DiscretizationConfig) (p : ShapeParameters)
    (hn2 : p.n2 ≠ 0) : pressureSideAt cfg p 1 = 0 := by
  rw [pressureSideAt, thicknessAt_one p hn2, camberAt_one]
  ring

/-- C2 amended: for valid shape parameters (`n1, n2 > 0`, `kr ≠ 0`,
`xf ∈ (0, 1)`) and a discretization with `n_points ≥ 2`, `x_start < x_stop` and
— whenever cosine spacing is selected — chord bounds within `[0, 1]` (outside
this interval the cosine remap is not monotone and the invariant fails, see the
counterexample), the generated outline is a closed sequence ordered trailing
edge → suction side → leading edge → pressure side → trailing edge: the
abscissas start and end at `x_stop`, strictly decrease down to the leading edge
and strictly increase back, all lie within `[x_start, x_stop]`, and the
leading-edge point `x_start` (the minimum abscissa) appears exactly once; the
first half of the ordinates is the reversed suction side and the second half
the pressure side, both ends meeting at the same point. -/
theorem outline_closed_ordered_bounded (cfg : DiscretizationConfig) (p : ShapeParameters)
    (hn : 2 ≤ cfg.nPoints) (hst : cfg.xStart < cfg.xStop)
    (hcos : cfg.cosineDistributed = true → 0 ≤ cfg.xStart ∧ cfg.xStop ≤ 1)
    (hn1 : 0 < p.n1) (hn2 : 0 < p.n2) (hkr : p.kr ≠ 0) (hxf0 : 0 < p.xf)
    (hxf1 : p.xf < 1) :
    generateAirfoil cfg p = .ok (outlineX cfg, outlineY cfg p) ∧
    (outlineX cfg).head? = some cfg.xStop ∧
    (outlineX cfg).getLast? = some cfg.xStop ∧
    (outlineY cfg p).head? = some cfg.xStart ∧
    (outlineY cfg p).getLast? = some cfg.xStart ∧
    (∀ x ∈ outlineX cfg, cfg.xStart ≤ x ∧ x ≤ cfg.xStop) ∧
    (outlineX cfg).count cfg.xStart = 1 ∧
    List.Chain' (· > ·) ((outlineX cfg).take cfg.nPoints) ∧
    List.Chain' (· < ·) ((outlineX cfg).drop (cfg.nPoints - 1)) ∧
    (outlineY cfg p).take cfg.nPoints =
      (((unitX cfg).map (suctionSideAt cfg p)).map (reverseMinMaxScaling cfg)).reverse ∧
    (outlineY cfg p).drop (cfg.nPoints - 1) =
      ((unitX cfg).map (pressureSideAt cfg p)).map (reverseMinMaxScaling cfg) := by
  have hUeq := unitX_eq_map cfg hn hst hcos
  have hu0 := unitXF_zero cfg
  have hu1 := unitXF_last cfg hn hst hcos
  have humono := unitXF_strictMono cfg hn hst hcos
  have hub := unitXF_bounds cfg hn hst hcos
  have hts : 0 < cfg.xStop - cfg.xStart := sub_pos.mpr hst
  have hFmono : ∀ i j, i < j → j < cfg.nPoints →
      reverseMinMaxScaling cfg (unitXF cfg i) < reverseMinMaxScaling cfg (unitXF cfg j) := by
    intro i j hij hj
    have hm := humono i j hij hj
    rw [reverseMinMaxScaling, reverseMinMaxScaling]
    nlinarith [hm, hts]
  have hF0 : reverseMinMaxScaling cfg (unitXF cfg 0) = cfg.xStart := by
    rw [hu0, reverseMinMaxScaling]
    ring
  have hF1 : reverseMinMaxScaling cfg (unitXF cfg (cfg.nPoints - 1)) = cfg.xStop := by
    rw [hu1, reverseMinMaxScaling]
    ring
  have hg0 : reverseMinMaxScaling cfg 0 = cfg.xStart := by
    rw [reverseMinMaxScaling]
    ring
  have hFbounds : ∀ i, i < cfg.nPoints →
      cfg.xStart ≤ reverseMinMaxScaling cfg (unitXF cfg i) ∧
        reverseMinMaxScaling cfg (unitXF cfg i) ≤ cfg.xStop := by
    intro i hi
    obtain ⟨hl, hr⟩ := hub i hi
    rw [reverseMinMaxScaling]
    constructor <;> nlinarith
  have hLX : (unitX cfg).map (reverseMinMaxScaling cfg) =
      (List.range cfg.nPoints).map fun i => reverseMinMaxScaling cfg (unitXF cfg i) := by
    rw [hUeq, List.map_map]
    rfl
  have hXeq : outlineX cfg =
      ((List.range cfg.nPoints).map fun i =>
        reverseMinMaxScaling cfg (unitXF cfg i)).reverse.dropLast ++
        (List.range cfg.nPoints).map fun i => reverseMinMaxScaling cfg (unitXF cfg i) := by
    rw [outlineX, assembledX, map_revConcat, hLX]
  have hLlen : ((List.range cfg.nPoints).map fun i =>
      reverseMinMaxScaling cfg (unitXF cfg i)).length = cfg.nPoints := by
    simp
  have hLpw := pairwise_lt_map_range (fun i => reverseMinMaxScaling cfg (unitXF cfg i))
    cfg.nPoints hFmono
  have hLchain : List.Chain' (· < ·) ((List.range cfg.nPoints).map fun i =>
      reverseMinMaxScaling cfg (unitXF cfg i)) := hLpw.chain'
  have hLnodup : ((List.range cfg.nPoints).map fun i =>
      reverseMinMaxScaling cfg (unitXF cfg i)).Nodup := hLpw.imp ne_of_lt
  have hLlast := map_range_getLast? (fun i => reverseMinMaxScaling cfg (unitXF cfg i))
    cfg.nPoints (by omega)
  have hLs : ((unitX cfg).map (suctionSideAt cfg p)).map (reverseMinMaxScaling cfg) =
      (List.range cfg.nPoints).map fun i =>
        reverseMinMaxScaling cfg (suctionSideAt cfg p (unitXF cfg i)) := by
    rw [hUeq, List.map_map, List.map_map]
    rfl
  have hLp : ((unitX cfg).map (pressureSideAt cfg p)).map (reverseMinMaxScaling cfg) =
      (List.range cfg.nPoints).map fun i =>
        reverseMinMaxScaling cfg (pressureSideAt cfg p (unitXF cfg i)) := by
    rw [hUeq, List.map_map, List.map_map]
    rfl
  have hYeq : outlineY cfg p =
      (((unitX cfg).map (suctionSideAt cfg p)).map
        (reverseMinMaxScaling cfg)).reverse.dropLast ++
        ((unitX cfg).map (pressureSideAt cfg p)).map (reverseMinMaxScaling cfg) := by
    rw [outlineY, assembledY, map_revConcat]
  refine ⟨?_, ?_, ?_, ?_, ?_, ?_, ?_, ?_, ?_, ?_, ?_⟩
  · rw [generateAirfoil, if_neg (ne_of_gt hxf0)]
  · rw [hXeq, revConcat_head? _ _ (by rw [hLlen]; omega), hLlast]
    simp only [hF1]
  · rw [hXeq, revConcat_getLast? _ _ (by simp; omega), hLlast]
    simp only [hF1]
  · rw [hYeq, revConcat_head? _ _ (by rw [hLs]; simpa using hn), hLs,
      map_range_getLast? _ _ (by omega)]
    simp only [hu1, suctionSideAt_one cfg p (ne_of_gt hn2), hg0]
  · rw [hYeq, revConcat_getLast? _ _ (by rw [hLp]; simp; omega), hLp,
      map_range_getLast? _ _ (by omega)]
    simp only [hu1, pressureSideAt_one cfg p (ne_of_gt hn2), hg0]
  · intro x hx
    rw [hXeq] at hx
    rcases revConcat_mem _ _ _ hx with h | h
    all_goals obtain ⟨i, hi, rfl⟩ := List.mem_map.mp h
    all_goals exact hFbounds i (List.mem_range.mp hi)
  · obtain ⟨m, hm⟩ : ∃ m, cfg.nPoints = m + 1 := ⟨cfg.nPoints - 1, by omega⟩
    have hdec := map_range_decomp (fun i => reverseMinMaxScaling cfg (unitXF cfg i)) m
    have hnd := hLnodup
    rw [hm, hdec] at hnd
    rw [hXeq, hm, hdec, ← hF0]
    exact revConcat_count _ _ hnd
  · rw [hXeq, revConcat_take _ _ _ hLlen hLlen (by omega) rfl]
    exact List.chain'_reverse.mpr hLchain
  · rw [hXeq, revConcat_drop _ _ _ hLlen]
    exact hLchain
  · rw [hYeq]
    apply revConcat_take
    · rw [hLs]
      simp
    · rw [hLp]
      simp
    · omega
    · rw [hLs, hLp, map_range_head? _ _ (by omega), map_range_head? _ _ (by omega)]
      simp only [hu0, suctionSideAt_zero cfg p (ne_of_gt hn1),
        pressureSideAt_zero cfg p (ne_of_gt hn1)]
  · rw [hYeq]
    apply revConcat_drop
    rw [hLs]
    simp

/-- Witness for C2 (amended) at a concrete input: two points per side, linear
spacing, unit chord, symmetric parameters. -/
theorem outline_closed_ordered_bounded_witness :
    2 ≤ (⟨2, false, 0, 1⟩ : DiscretizationConfig).nPoints ∧
    (⟨2, false, 0, 1⟩ : DiscretizationConfig).xStart <
      (⟨2, false, 0, 1⟩ : DiscretizationConfig).xStop ∧
    (0 : ℝ) < (⟨1, 1, 1, 0, 1/2, 1/2⟩ : ShapeParameters).n1 ∧
    (generateAirfoil ⟨2, false, 0, 1⟩ ⟨1, 1, 1, 0, 1/2, 1/2⟩ =
        .ok (outlineX ⟨2, false, 0, 1⟩,
          outlineY ⟨2, false, 0, 1⟩ ⟨1, 1, 1, 0, 1/2, 1/2⟩) ∧
      (outlineX ⟨2, false, 0, 1⟩).head? =
        some (⟨2, false, 0, 1⟩ : DiscretizationConfig).xStop ∧
      (outlineX ⟨2, false, 0, 1⟩).getLast? =
        some (⟨2, false, 0, 1⟩ : DiscretizationConfig).xStop ∧
      (outlineY ⟨2, false, 0, 1⟩ ⟨1, 1, 1, 0, 1/2, 1/2⟩).head? =
        some (⟨2, false, 0, 1⟩ : DiscretizationConfig).xStart ∧
      (outlineY ⟨2, false, 0, 1⟩ ⟨1, 1, 1, 0, 1/2, 1/2⟩).getLast? =
        some (⟨2, false, 0, 1⟩ : DiscretizationConfig).xStart ∧
      (∀ x ∈ outlineX ⟨2, false, 0, 1⟩,
        (⟨2, false, 0, 1⟩ : DiscretizationConfig).xStart ≤ x ∧
          x ≤ (⟨2, false, 0, 1⟩ : DiscretizationConfig).xStop) ∧
      (outlineX ⟨2, false, 0, 1⟩).count
        (⟨2, false, 0, 1⟩ : DiscretizationConfig).xStart = 1 ∧
      List.Chain' (· > ·)
        ((outlineX ⟨2, false, 0, 1⟩).take
          (⟨2, false, 0, 1⟩ : DiscretizationConfig).nPoints) ∧
      List.Chain' (· < ·)
        ((outlineX ⟨2, false, 0, 1⟩).drop
          ((⟨2, false, 0, 1⟩ : DiscretizationConfig).nPoints - 1)) ∧
      (outlineY ⟨2, false, 0, 1⟩ ⟨1, 1, 1, 0, 1/2, 1/2⟩).take
          (⟨2, false, 0, 1⟩ : DiscretizationConfig).nPoints =
        (((unitX ⟨2, false, 0, 1⟩).map
          (suctionSideAt ⟨2, false, 0, 1⟩ ⟨1, 1, 1, 0, 1/2, 1/2⟩)).map
            (reverseMinMaxScaling ⟨2, false, 0, 1⟩)).reverse ∧
      (outlineY ⟨2, false, 0, 1⟩ ⟨1, 1, 1, 0, 1/2, 1/2⟩).drop
          ((⟨2, false, 0, 1⟩ : DiscretizationConfig).nPoints - 1) =
        ((unitX ⟨2, false, 0, 1⟩).map
          (pressureSideAt ⟨2, false, 0, 1⟩ ⟨1, 1, 1, 0, 1/2, 1/2⟩)).map
            (reverseMinMaxScaling ⟨2, false, 0, 1⟩)) :=
  ⟨by norm_num, by norm_num, by norm_num,
   outline_closed_ordered_bounded ⟨2, false, 0, 1⟩ ⟨1, 1, 1, 0, 1/2, 1/2⟩
     (by norm_num) (by norm_num) (by simp) (by norm_num) (by norm_num) (by norm_num)
     (by norm_num) (by norm_num)⟩

/-- C2 counterexample: with cosine spacing and the chord bounds
`x_start = -1 < 1 = x_stop` (which the spec's only stated constraint,
`x_start < x_stop`, allows) and `n_points = 3`, the cosine remap
`(x_stop-x_start)/2 * (1 - cos(pi*x))` is not monotone on the linear samples
`[-1, 0, 1]`: it maps them to `[2, 0, 2]`, which normalize to `[1, 0, 1]`, so
the assembled outline abscissas are `[1, -1, 1, -1, 1]` — the leading-edge
point (the minimum abscissa `-1`) appears twice, not exactly once, and the
sequence is not ordered trailing edge → suction side → leading edge → pressure
side → trailing edge. -/
theorem outline_min_x_duplicated_counterexample :
    outlineX ⟨3, true, -1, 1⟩ = [1, -1, 1, -1, 1] ∧
    (outlineX ⟨3, true, -1, 1⟩).count (-1) = 2 ∧
    (∀ x ∈ outlineX ⟨3, true, -1, 1⟩, -1 ≤ x ∧ x ≤ 1) ∧
    generateAirfoil ⟨3, true, -1, 1⟩ ⟨1, 1, 1, 0, 1/2, 1/10⟩ =
      .ok (outlineX ⟨3, true, -1, 1⟩,
        outlineY ⟨3, true, -1, 1⟩ ⟨1, 1, 1, 0, 1/2, 1/10⟩) := by
  have hlin : linspace (-1) 1 3 = [-1, 0, 1] := by
    norm_num [linspace, linspaceF, List.range_succ]
  have hraw : rawX ⟨3, true, -1, 1⟩ = [2, 0, 2] := by
    rw [rawX, if_pos rfl, hlin]
    norm_num [cosineDistribution]
  have hunit : unitX ⟨3, true, -1, 1⟩ = [1, 0, 1] := by
    rw [unitX, hraw, scaleX]
    norm_num [listMin, listMax, min_def, max_def]
  have hasm : assembledX ⟨3, true, -1, 1⟩ = [1, 0, 1, 0, 1] := by
    rw [assembledX, hunit]
    rfl
  have hout : outlineX ⟨3, true, -1, 1⟩ = [1, -1, 1, -1, 1] := by
    rw [outlineX, hasm]
    norm_num [reverseMinMaxScaling]
  refine ⟨hout, ?_, ?_, ?_⟩
  · rw [hout]
    norm_num [List.count_cons]
  · intro x hx
    rw [hout] at hx
    simp at hx
    rcases hx with h | h | h | h | h <;> subst h <;> norm_num
  · rw [generateAirfoil, if_neg (by norm_num)]

theorem unitX_linear (s t : ℝ) (n : ℕ) (hn : 2 ≤ n) (hst : s < t) :
    unitX ⟨n, false, s, t⟩ = linspace 0 1 n := by
  rw [unitX_eq_map ⟨n, false, s, t⟩ hn hst (by simp), linspace]
  apply List.map_congr_left
  intro i hi
  have hnR : (2 : ℝ) ≤ (n : ℝ) := by exact_mod_cast hn
  have hn1 : (n : ℝ) - 1 ≠ 0 := by linarith
  have hts : t - s ≠ 0 := ne_of_gt (sub_pos.mpr hst)
  show unitXF ⟨n, false, s, t⟩ i = linspaceF 0 1 n i
  have hrawF : ∀ j : ℕ, rawXF ⟨n, false, s, t⟩ j = linspaceF s t n j := by
    intro j
    simp [rawXF]
  rw [unitXF, hrawF, hrawF, hrawF, linspaceF_zero]
  show (linspaceF s t n i - s) / (linspaceF s t n (n - 1) - s) = _
  rw [linspaceF_last s t n hn, linspaceF, linspaceF]
  field_simp
  ring

/-- C10: the final ordinates are produced by the identical affine map that
rescales the abscissas, `v ↦ v * (x_stop - x_start) + x_start`; consequently a
run with chord bounds `[s, t]` yields exactly the unit-chord outline with both
coordinate axes mapped through `v ↦ v * (t - s) + s`, so for `x_start ≠ 0`
every ordinate is shifted vertically by `x_start`, not merely scaled. -/
theorem y_rescaled_by_same_affine_map_as_x (s t : ℝ) (n : ℕ) (p : ShapeParameters)
    (hn : 2 ≤ n) (hst : s < t) :
    outlineY ⟨n, false, s, t⟩ p =
      (assembledY ⟨n, false, s, t⟩ p).map (fun v => v * (t - s) + s) ∧
    outlineY ⟨n, false, s, t⟩ p =
      (outlineY ⟨n, false, 0, 1⟩ p).map (fun v => v * (t - s) + s) ∧
    outlineX ⟨n, false, s, t⟩ =
      (outlineX ⟨n, false, 0, 1⟩).map (fun v => v * (t - s) + s) := by
  have hu := unitX_linear s t n hn hst
  have hu0 := unitX_linear 0 1 n hn (by norm_num)
  have hUU : unitX ⟨n, false, s, t⟩ = unitX ⟨n, false, 0, 1⟩ := by rw [hu, hu0]
  have hmapc : ∀ A : List ℝ,
      (A.map (reverseMinMaxScaling ⟨n, false, 0, 1⟩)).map (fun v => v * (t - s) + s) =
        A.map (reverseMinMaxScaling ⟨n, false, s, t⟩) := by
    intro A
    rw [List.map_map]
    apply List.map_congr_left
    intro v _
    show (v * (1 - 0) + 0) * (t - s) + s = v * (t - s) + s
    ring
  have hsf : scaleFactor ⟨n, false, s, t⟩ p = scaleFactor ⟨n, false, 0, 1⟩ p := by
    rw [scaleFactor, scaleFactor, thicknessDistribution, thicknessDistribution, hUU]
  have hsuct : suctionSideAt ⟨n, false, s, t⟩ p = suctionSideAt ⟨n, false, 0, 1⟩ p := by
    funext x
    rw [suctionSideAt, suctionSideAt, hsf]
  have hpress : pressureSideAt ⟨n, false, s, t⟩ p = pressureSideAt ⟨n, false, 0, 1⟩ p := by
    funext x
    rw [pressureSideAt, pressureSideAt, hsf]
  have hasmY : assembledY ⟨n, false, s, t⟩ p = assembledY ⟨n, false, 0, 1⟩ p := by
    rw [assembledY, assembledY, hUU, hsuct, hpress]
  have hasmX : assembledX ⟨n, false, s, t⟩ = assembledX ⟨n, false, 0, 1⟩ := by
    rw [assembledX, assembledX, hUU]
  refine ⟨rfl, ?_, ?_⟩
  · rw [outlineY, outlineY, hmapc, hasmY]
  · rw [outlineX, outlineX, hmapc, hasmX]

/-- Witness for C10 at a concrete input: chord bounds `[1, 2]`, two points per
side, symmetric parameters; every final ordinate is shifted by `x_start = 1`. -/
theorem y_rescaled_by_same_affine_map_as_x_witness :
    2 ≤ 2 ∧ (1 : ℝ) < 2 ∧
    (outlineY ⟨2, false, 1, 2⟩ ⟨1, 1, 1, 0, 1/2, 1/2⟩ =
        (assembledY ⟨2, false, 1, 2⟩ ⟨1, 1, 1, 0, 1/2, 1/2⟩).map
          (fun v => v * (2 - 1) + 1) ∧
      outlineY ⟨2, false, 1, 2⟩ ⟨1, 1, 1, 0, 1/2, 1/2⟩ =
        (outlineY ⟨2, false, 0, 1⟩ ⟨1, 1, 1, 0, 1/2, 1/2⟩).map
          (fun v => v * (2 - 1) + 1) ∧
      outlineX ⟨2, false, 1, 2⟩ =
        (outlineX ⟨2, false, 0, 1⟩).map (fun v => v * (2 - 1) + 1)) :=
  ⟨by norm_num, by norm_num,
   y_rescaled_by_same_affine_map_as_x 1 2 2 ⟨1, 1, 1, 0, 1/2, 1/2⟩
     (by norm_num) (by norm_num)⟩

end AirfoilOpt
